import Mathlib

/-!
Verification development for the HuixiangDou feature store
(`huixiangdou/service/feature_store.py`).

Text is modelled as `List Char` (named `Str`), so that Python string
slicing — including negative slice bounds — can be embedded faithfully.
External capabilities (the langchain text splitters, the FAISS vector
search, sklearn's precision-recall curve) are modelled from the spec's
interface descriptions; everything else is translated from the source.
-/

/-- Python strings are modelled as lists of characters. -/
abbrev Str := List Char

/-- The newline character. -/
def NL : Char := Char.ofNat 10

/-- The space character. -/
def spaceChar : Char := Char.ofNat 32

/-- The hash character used by markdown headers. -/
def hashChar : Char := Char.ofNat 35

/-- Python slice-bound normalization for `xs[a:b]` (step 1): a negative
bound counts from the end of the list, then both bounds are clamped to
`[0, len(xs)]`. -/
def pybound (n : Nat) (i : Int) : Int :=
  if i < 0 then max ((n : Int) + i) 0 else min i (n : Int)

/-- Python slice semantics, continued: `xs[a:b]` with both normalized
bounds. -/
def pyslice (xs : Str) (a b : Int) : Str :=
  (xs.drop (pybound xs.length a).toNat).take
    ((pybound xs.length b).toNat - (pybound xs.length a).toNat)

/-- Python `haystack.find(needle)`: index of the first occurrence of
`needle` as a contiguous substring, `none` for Python's `-1`. -/
def firstOccur (n : Str) (h : Str) : Option Nat :=
  if n.isPrefixOf h then some 0
  else
    match h with
    | [] => none
    | _ :: t => (firstOccur n t).map (fun j => j + 1)

/-- `str.lower()` applied characterwise. -/
def toLowerStr (s : Str) : Str := s.map Char.toLower

/-- Split a text into its lines (separator `\n`, empty lines kept). -/
def splitLines : Str → List Str
  | [] => [[]]
  | c :: rest =>
    match splitLines rest with
    | [] => [[]]
    | l :: ls => if c = NL then [] :: l :: ls else (c :: l) :: ls

/-- A header-delimited markdown section: the active level-1/2/3 header
titles and the section body, as produced by the header-aware splitter. -/
structure MSection where
  h1 : Option Str
  h2 : Option Str
  h3 : Option Str
  content : Str
deriving DecidableEq, Repr

/-- Flush the accumulated content lines into a section (sections with no
content are not emitted). -/
def flushSection (h1 h2 h3 : Option Str) (buf : List Str) : List MSection :=
  let content := List.intercalate (NL :: []) (buf.filter (fun l => !l.isEmpty))
  if content.isEmpty then [] else [⟨h1, h2, h3, content⟩]

/-- Modelled from the spec: the header-aware splitter (the repository
delegates it to an external markdown header text splitter, configured for
header levels 1–3).  A header line starts a new section, records its title
at the matching level and clears the deeper levels; other lines accumulate
into the current section's content. -/
def headSplitAux : List Str → Option Str → Option Str → Option Str → List Str → List MSection
  | [], h1, h2, h3, buf => flushSection h1 h2 h3 buf
  | l :: rest, h1, h2, h3, buf =>
    if (hashChar :: hashChar :: hashChar :: spaceChar :: []).isPrefixOf l then
      flushSection h1 h2 h3 buf ++ headSplitAux rest h1 h2 (some (l.drop 4)) []
    else if (hashChar :: hashChar :: spaceChar :: []).isPrefixOf l then
      flushSection h1 h2 h3 buf ++ headSplitAux rest h1 (some (l.drop 3)) none []
    else if (hashChar :: spaceChar :: []).isPrefixOf l then
      flushSection h1 h2 h3 buf ++ headSplitAux rest (some (l.drop 2)) none none []
    else headSplitAux rest h1 h2 h3 (buf ++ [l])

/-- Modelled from the spec: split a markdown text into header-delimited
sections (levels 1–3). -/
def headSplit (text : Str) : List MSection := headSplitAux (splitLines text) none none none []

/-- Modelled from the spec: the length-bounded splitter with target chunk
size 768 and overlap 32 (the repository delegates it to an external
markdown text splitter).  Successive windows of at most 768 characters
start 736 = 768 − 32 apart, so consecutive windows overlap by 32. -/
def windowSplit (s : Str) : List Str :=
  if _h : s.length ≤ 768 then [s]
  else s.take 768 :: windowSplit (s.drop 736)
termination_by s.length
decreasing_by
  simp only [List.length_drop]
  omega

/-- The header string prepended to a section's chunks, translated from
`FeatureStore.split_md`: the present header titles joined by single
spaces. -/
def headerOf (sec : MSection) : Str :=
  let a : Str := match sec.h1 with | some t => t | none => []
  let b : Str := match sec.h2 with | some t => a ++ spaceChar :: t | none => a
  match sec.h3 with | some t => b ++ spaceChar :: t | none => b

/-- Chunk formatting from `FeatureStore.split_md`:
`'{} {}'.format(header, content.lower())`. -/
def formatChunk (header content : Str) : Str := header ++ spaceChar :: toLowerStr content

/-- The chunks contributed by one header section, translated from the loop
body of `FeatureStore.split_md`: a section of length ≥ 1024 is re-split by
the length-bounded splitter and sub-pieces of length ≥ 10 are kept; a
shorter section is kept as one chunk when its length is ≥ 10. -/
def chunksOfSection (sec : MSection) : List Str :=
  if 1024 ≤ sec.content.length then
    ((windowSplit sec.content).filter (fun c => decide (10 ≤ c.length))).map
      (formatChunk (headerOf sec))
  else if 10 ≤ sec.content.length then [formatChunk (headerOf sec) sec.content]
  else []

/-- `FeatureStore.split_md`: header-aware splitting followed by the
length-bounded re-split of oversized sections. -/
def split_md (text : Str) : List Str := (headSplit text).flatMap chunksOfSection

/-- Chunk formatting as claim C3 describes the reject path: identical to
`formatChunk` except that the stored content keeps the document's original
character case.  This follows the claim's words, for comparison with the
source-derived `formatChunk`. -/
def formatChunkRawCase (header content : Str) : Str := header ++ spaceChar :: content

/-- The per-section chunks as claim C3 describes the reject path (case
preserved). -/
def chunksOfSectionRawCase (sec : MSection) : List Str :=
  if 1024 ≤ sec.content.length then
    ((windowSplit sec.content).filter (fun c => decide (10 ≤ c.length))).map
      (formatChunkRawCase (headerOf sec))
  else if 10 ≤ sec.content.length then [formatChunkRawCase (headerOf sec) sec.content]
  else []

/-- Markdown chunking as claim C3 describes the reject path: the same
splitting, with the original character case preserved. -/
def split_md_rawcase (text : Str) : List Str := (headSplit text).flatMap chunksOfSectionRawCase

/-- The left square bracket. -/
def lbrackChar : Char := Char.ofNat 91

/-- The right square bracket. -/
def rbrackChar : Char := Char.ofNat 93

/-- The left parenthesis. -/
def lparenChar : Char := Char.ofNat 40

/-- The right parenthesis. -/
def rparenChar : Char := Char.ofNat 41

/-- The backtick character delimiting fenced code blocks. -/
def tickChar : Char := Char.ofNat 96

/-- The underscore character. -/
def uscChar : Char := Char.ofNat 95

/-- Lazy scan for the closing parenthesis of a markdown link's URL part
(the lazy group stops at the first closing parenthesis; a newline aborts
the match, since the pattern is compiled without DOTALL). -/
def scanToClose : Str → Option Str
  | [] => none
  | c :: rest =>
    if c = rparenChar then some rest
    else if c = NL then none
    else scanToClose rest

theorem scanToClose_lt : ∀ (s r : Str), scanToClose s = some r → r.length < s.length := by
  intro s
  induction s with
  | nil => intro r h; simp [scanToClose] at h
  | cons c rest ih =>
    intro r h
    simp only [scanToClose] at h
    split at h
    · cases h
      simp
    · split at h
      · cases h
      · have := ih r h
        simp only [List.length_cons]
        omega

/-- After the closing square bracket of a markdown link label, the pattern
requires an opening parenthesis followed by a lazily matched URL part. -/
def matchAfterRB (s : Str) : Option Str :=
  match s with
  | c :: rest => if c = lparenChar then scanToClose rest else none
  | [] => none

theorem matchAfterRB_lt : ∀ (s r : Str), matchAfterRB s = some r → r.length < s.length := by
  intro s r h
  match s with
  | [] => simp [matchAfterRB] at h
  | c :: rest =>
    simp only [matchAfterRB] at h
    split at h
    · have := scanToClose_lt rest r h
      simp only [List.length_cons]
      omega
    · cases h

/-- Lazy match of a markdown link body after its opening square bracket:
returns the label (the lazily matched group) and the rest of the text
after the closing parenthesis.  At the first closing bracket the matcher
tries to complete the link; on failure it backtracks and treats the
bracket as a label character, mirroring the regex's lazy backtracking.  A
newline aborts (the label group cannot cross lines). -/
def matchLinkBody : Str → Option (Str × Str)
  | [] => none
  | c :: rest =>
    if c = NL then none
    else if c = rbrackChar then
      match matchAfterRB rest with
      | some rem => some ([], rem)
      | none =>
        match matchLinkBody rest with
        | some (lab, rem) => some (c :: lab, rem)
        | none => none
    else
      match matchLinkBody rest with
      | some (lab, rem) => some (c :: lab, rem)
      | none => none

theorem matchLinkBody_lt :
    ∀ (s lab rem : Str), matchLinkBody s = some (lab, rem) → rem.length < s.length := by
  intro s
  induction s with
  | nil => intro lab rem h; simp [matchLinkBody] at h
  | cons c rest ih =>
    intro lab rem h
    simp only [matchLinkBody] at h
    split at h
    · cases h
    · split at h
      · split at h
        · rename_i rem' hrb
          cases h
          have := matchAfterRB_lt rest rem hrb
          simp only [List.length_cons]
          omega
        · split at h
          · rename_i lab' rem' hbody
            cases h
            have := ih lab' rem hbody
            simp only [List.length_cons]
            omega
          · cases h
      · split at h
        · rename_i lab' rem' hbody
          cases h
          have := ih lab' rem hbody
          simp only [List.length_cons]
          omega
        · cases h

/-- `re.sub(r'\[(.*?)\]\(.*?\)', r'\1', text)`: replace each markdown
reference link with its label, scanning left to right. -/
def removeLinks : Str → Str
  | [] => []
  | c :: rest =>
    if c = lbrackChar then
      match hm : matchLinkBody rest with
      | some (lab, rem) => lab ++ removeLinks rem
      | none => c :: removeLinks rest
    else c :: removeLinks rest
termination_by s => s.length
decreasing_by
  · have := matchLinkBody_lt _ _ _ hm
    simp only [List.length_cons]
    omega
  · simp
  · simp

/-- Lazy scan for the closing fence of a code block (DOTALL: newlines are
matched by the lazy group). -/
def scanCodeClose : Str → Option Str
  | a :: b :: c :: rest =>
    if a = tickChar ∧ b = tickChar ∧ c = tickChar then some rest
    else scanCodeClose (b :: c :: rest)
  | _ => none
termination_by s => s.length
decreasing_by simp

theorem scanCodeClose_lt :
    ∀ (n : Nat) (s r : Str), s.length ≤ n → scanCodeClose s = some r → r.length < s.length := by
  intro n
  induction n with
  | zero =>
    intro s r hlen h
    match s with
    | [] => simp [scanCodeClose] at h
    | [a] => simp at hlen
    | a :: b :: t => simp at hlen
  | succ n ih =>
    intro s r hlen h
    match s with
    | [] => simp [scanCodeClose] at h
    | [a] => simp [scanCodeClose] at h
    | [a, b] => simp [scanCodeClose] at h
    | a :: b :: c :: rest =>
      rw [scanCodeClose] at h
      split at h
      · cases h
        simp only [List.length_cons]
        omega
      · have hlen' : (b :: c :: rest).length ≤ n := by
          simp only [List.length_cons] at hlen ⊢
          omega
        have := ih (b :: c :: rest) r hlen' h
        simp only [List.length_cons] at this ⊢
        omega

/-- `re.sub(r'```.*?```', '', text, flags=re.DOTALL)`: delete each fenced
code block, scanning left to right; an opening fence with no closing fence
is left in place (the pattern cannot match there, nor anywhere later). -/
def removeCodeBlocks : Str → Str
  | a :: b :: c :: rest =>
    if a = tickChar ∧ b = tickChar ∧ c = tickChar then
      match hm : scanCodeClose rest with
      | some rem => removeCodeBlocks rem
      | none => a :: b :: c :: rest
    else a :: removeCodeBlocks (b :: c :: rest)
  | s => s
termination_by s => s.length
decreasing_by
  · have := scanCodeClose_lt _ _ _ (Nat.le_refl _) hm
    simp only [List.length_cons]
    omega
  · simp

theorem dropWhile_length_le (p : Char → Bool) (l : Str) :
    (List.dropWhile p l).length ≤ l.length := by
  induction l with
  | nil => simp
  | cons c t ih =>
    rw [List.dropWhile_cons]
    split
    · simp only [List.length_cons]; omega
    · simp

theorem dropWhile_cons_length_lt (p : Char → Bool) (c : Char) (l : Str) (h : p c = true) :
    (List.dropWhile p (c :: l)).length < (c :: l).length := by
  rw [List.dropWhile_cons, if_pos h]
  have := dropWhile_length_le p l
  simp only [List.length_cons]
  omega

/-- `re.sub('_{5,}', '', text)`: delete each maximal run of at least five
underscores; shorter runs are kept. -/
def removeUnderscores : Str → Str
  | [] => []
  | c :: rest =>
    if hcu : c = uscChar then
      let run := (c :: rest).takeWhile (fun x => x == uscChar)
      let rem := (c :: rest).dropWhile (fun x => x == uscChar)
      if 5 ≤ run.length then removeUnderscores rem else run ++ removeUnderscores rem
    else c :: removeUnderscores rest
termination_by s => s.length
decreasing_by
  all_goals first
    | exact dropWhile_cons_length_lt _ _ _ (by simp [hcu])
    | simp

/-- `FeatureStore.clean_md`: remove markdown reference links (keeping the
label), fenced code blocks and long underline rules, then lower-case. -/
def clean_md (text : Str) : Str :=
  toLowerStr (removeUnderscores (removeCodeBlocks (removeLinks text)))

/-- Per-document chunk extraction on the reject path, translated from the
loop body of `FeatureStore.ingress_reject`: documents of length ≤ 1 are
skipped, others are chunked from the raw text (no cleaning pass). -/
def ingressRejectChunks (text : Str) : List Str :=
  if text.length ≤ 1 then [] else split_md text

/-- Per-document chunk extraction on the response path, translated from
the loop body of `FeatureStore.ingress_response`: the text is cleaned
first, then the length guard and chunking are applied to the cleaned
text. -/
def ingressResponseChunks (text : Str) : List Str :=
  let t := clean_md text
  if t.length ≤ 1 then [] else split_md t

/-- Modelled from the spec: the vector index search capability
`Index.search(queryText, k, scoreThreshold)` — given the index's ranked
scored hits for a question, return the top `k` of them filtered by
`score ≥ threshold`. -/
def searchWithThrottle (scored : List (Str × ℚ)) (k : Nat) (t : ℚ) : List (Str × ℚ) :=
  (scored.take k).filter (fun d => decide (t ≤ d.2))

/-- `FeatureStore.is_reject` with throttling enabled: search the reject
index with `k = 20` and `score_threshold = t`; reject iff the result set
is empty (`len(docs) < 1`).  `scored` is the reject index's ranked scored
hit list for the question. -/
def is_reject (scored : List (Str × ℚ)) (t : ℚ) : Bool × List (Str × ℚ) :=
  let docs := searchWithThrottle scored 20 t
  if docs.length < 1 then (true, docs) else (false, docs)

/-- A document returned by the compression retriever, together with the
text of the file at its `source` path (`query` re-reads that file from
disk). -/
structure RDoc where
  page_content : Str
  source : String
  fileText : Str
deriving DecidableEq

/-- The deduplicated source-path list built by the first loop of
`FeatureStore.query` (first-seen order preserved). -/
def collectFiles (docs : List RDoc) : List String :=
  docs.foldl (fun fs d => if d.source ∈ fs then fs else fs ++ [d.source]) []

/-- `'\n'.join(chunks)`. -/
def joinNL (xs : List Str) : Str := List.intercalate (NL :: []) xs

/-- The context-assembly loop of `FeatureStore.query` (lines 299-320): for
each ranked hit, append the hit's whole source file while it fits; at the
first hit that would overflow the budget, append a window of the file
around the matched chunk (or, when the chunk does not occur verbatim in
the file, the chunk itself, a newline and a prefix of the file) and
stop. -/
def assembleLoop (docs : List RDoc) (maxLen : Int) (context : Str) : Str :=
  match docs with
  | [] => context
  | doc :: rest =>
    let chunk := doc.page_content
    let ft := doc.fileText
    if (ft.length : Int) + (context.length : Int) > maxLen then
      let addLen : Int := maxLen - (context.length : Int)
      if addLen ≤ 0 then context
      else
        match firstOccur chunk ft with
        | none =>
          context ++ chunk ++ NL :: pyslice ft 0 (addLen - (chunk.length : Int) - 1)
        | some idx =>
          let startIndex : Int := max 0 ((idx : Int) - (addLen - (chunk.length : Int)))
          context ++ pyslice ft startIndex (startIndex + addLen)
    else assembleLoop rest maxLen (context ++ NL :: ft)

/-- The exception message for a failed `assert`. -/
def assertErr : String := "AssertionError"

/-- The exception message for indexing an empty list (`files[0]`). -/
def indexErr : String := "IndexError"

/-- `FeatureStore.query`: reject null/empty questions, run the rejection
gate, collect the reranked hits' chunks and deduplicated source paths,
assemble the context, check the assertion `len(context) <=
context_max_length`, and log `files[0]` (an exception when no document
was retrieved) before returning the joined chunks and the context.
`rejectScored` is the reject index's ranked scored hit list for the
question and `throttle` the configured threshold; `docs` is the
compression retriever's output. -/
def query (question : Option Str) (rejectScored : List (Str × ℚ)) (throttle : ℚ)
    (docs : List RDoc) (contextMaxLength : Int) :
    Except String (Option Str × Option Str) :=
  match question with
  | none => .ok (none, none)
  | some q =>
    if q.length < 1 then .ok (none, none)
    else
      let r := is_reject rejectScored throttle
      if r.1 then .ok (none, none)
      else
        let chunks := docs.map (fun d => d.page_content)
        let files := collectFiles docs
        let context := assembleLoop docs contextMaxLength []
        if (context.length : Int) ≤ contextMaxLength then
          match files with
          | [] => .error indexErr
          | _ :: _ => .ok (some (joinNL chunks), some context)
        else .error assertErr

/-- The number of predictions with score ≥ the candidate threshold. -/
def countGE (l : List ℚ) (t : ℚ) : Nat := (l.filter (fun x => decide (t ≤ x))).length

/-- Modelled from the spec: the precision value of the precision-recall
curve at a candidate threshold (positives are the good questions, and a
question is predicted positive iff its score is ≥ the threshold). -/
def precisionAt (gs bs : List ℚ) (t : ℚ) : ℚ :=
  (countGE gs t : ℚ) / ((countGE gs t : ℚ) + (countGE bs t : ℚ))

/-- Modelled from the spec: the recall value of the precision-recall curve
at a candidate threshold. -/
def recallAt (gs : List ℚ) (t : ℚ) : ℚ := (countGE gs t : ℚ) / (gs.length : ℚ)

/-- `precision + recall` at a candidate threshold (the quantity the
calibration sweep maximises). -/
def sumPR (gs bs : List ℚ) (t : ℚ) : ℚ := precisionAt gs bs t + recallAt gs t

/-- The maximum of a list of rationals (0 for the empty list, which the
calibration never produces). -/
def listMax : List ℚ → ℚ
  | [] => 0
  | [x] => x
  | x :: y :: rest => max x (listMax (y :: rest))

/-- The minimum of a list of rationals (0 for the empty list). -/
def listMin : List ℚ → ℚ
  | [] => 0
  | [x] => x
  | x :: y :: rest => min x (listMin (y :: rest))

/-- `np.argmax`: the index of the first occurrence of the maximum. -/
def argmaxIdx (l : List ℚ) : Nat := l.findIdx (fun v => decide (listMax l ≤ v))

/-- Modelled from the spec: the candidate thresholds of the
precision-recall curve — the distinct prediction scores in increasing
order. -/
def sortedDedup (l : List ℚ) : List ℚ := List.insertionSort (· ≤ ·) l.dedup

/-- The threshold-calibration sweep of `FeatureStore.initialize` (lines
389-405), with the reject-index scores of the labeled questions given as
inputs (the score extraction itself calls the external embedder):
predictions are the good questions' scores followed by the bad questions'
scores, and the winning threshold maximises `precision + recall` over the
candidate thresholds, first occurrence winning ties. -/
def calibrate (goodScores badScores : List ℚ) : ℚ :=
  let preds := goodScores ++ badScores
  let thresholds := sortedDedup preds
  let sums := thresholds.map (sumPR goodScores badScores)
  thresholds.getD (argmaxIdx sums) 0

/-- A configuration value: a string (model paths) or a number (the
throttle). -/
abbrev CVal := String ⊕ ℚ

/-- A configuration section: an association list of keys and values. -/
abbrev CSection := List (String × CVal)

/-- A parsed configuration file: named sections. -/
abbrev TomlConfig := List (String × CSection)

/-- Python dict assignment `section[k] = v`: replace the value at `k`,
keeping every other entry; append if `k` is absent. -/
def setKey (s : CSection) (k : String) (v : CVal) : CSection :=
  match s with
  | [] => [(k, v)]
  | (k', v') :: rest => if k' = k then (k, v) :: rest else (k', v') :: setKey rest k v

/-- The `feature_store` section name. -/
def featureStoreKey : String := "feature_store"

/-- The `reject_throttle` configuration key. -/
def rejectThrottleKey : String := "reject_throttle"

/-- The `embedding_model_path` configuration key. -/
def embeddingKey : String := "embedding_model_path"

/-- The `reranker_model_path` configuration key. -/
def rerankerKey : String := "reranker_model_path"

/-- The configuration rewrite of `FeatureStore.initialize` (lines
407-411): load the whole configuration, assign
`config['feature_store']['reject_throttle'] = optimal_threshold`, and
write everything back. -/
def saveThrottle (cfg : TomlConfig) (t : ℚ) : TomlConfig :=
  cfg.map (fun sec =>
    if sec.1 = featureStoreKey then (sec.1, setKey sec.2 rejectThrottleKey (Sum.inr t))
    else sec)

/-- Look a key up in a named section of the configuration. -/
def lookup2 (cfg : TomlConfig) (name k : String) : Option CVal :=
  match List.lookup name cfg with
  | some sec => List.lookup k sec
  | none => none

/-- A simplified file system: a set of directories and a set of files with
contents (paths are plain strings). -/
structure SimFS where
  dirs : List String
  files : List (String × String)
deriving DecidableEq

/-- The directory preparation of `FeatureStore.ingress_response` /
`ingress_reject` (lines 170-172 and 199-201): create the feature
directory only when it does not exist; nothing is removed. -/
def makedirsIfAbsent (fs : SimFS) (d : String) : SimFS :=
  if d ∈ fs.dirs then fs else ⟨d :: fs.dirs, fs.files⟩

/-- Directory preparation as claim C7 describes it: remove the index
directory and everything under it, then recreate it empty.  This follows
the claim's words, for comparison with the source-derived
`makedirsIfAbsent`. -/
def removeAndRecreate (fs : SimFS) (d : String) : SimFS :=
  ⟨d :: fs.dirs.filter (fun x => x ≠ d),
   fs.files.filter (fun f => !(List.isPrefixOf (d ++ "/").toList f.1.toList))⟩

theorem query_some_cons (c : Char) (t : Str) (rs : List (Str × ℚ)) (th : ℚ)
    (docs : List RDoc) (m : Int) :
    query (some (c :: t)) rs th docs m
      = if (is_reject rs th).1 then Except.ok (none, none)
        else
          if ((assembleLoop docs m []).length : Int) ≤ m then
            match collectFiles docs with
            | [] => .error indexErr
            | _ :: _ => .ok (some (joinNL (docs.map (fun d => d.page_content))),
                             some (assembleLoop docs m []))
          else .error assertErr := by
  rfl

theorem desc_head {a : Str × ℚ} {l : List (Str × ℚ)}
    (h : List.Chain' (fun x y => y.2 ≤ x.2) (a :: l)) : ∀ x ∈ l, x.2 ≤ a.2 := by
  induction l generalizing a with
  | nil => intro x hx; cases hx
  | cons b u ih =>
    intro x hx
    rw [List.chain'_cons] at h
    rcases List.mem_cons.mp hx with h1 | h1
    · rw [h1]; exact h.1
    · exact le_trans (ih h.2 x h1) h.1

theorem is_reject_eq (l : List (Str × ℚ)) (t : ℚ) :
    is_reject l t = if (searchWithThrottle l 20 t).length < 1
      then (true, searchWithThrottle l 20 t) else (false, searchWithThrottle l 20 t) := rfl

/-- Claim C2: with throttling enabled, the gate rejects a question exactly
when the top scored hit against the reject index scores strictly below the
threshold; equivalently, exactly when the threshold-filtered hit set is
empty. -/
theorem C2_reject_iff (c : Str) (s : ℚ) (rest : List (Str × ℚ)) (t : ℚ)
    (hsorted : List.Chain' (fun x y => y.2 ≤ x.2) ((c, s) :: rest)) :
    ((is_reject ((c, s) :: rest) t).1 = true ↔ s < t) ∧
    (∀ l : List (Str × ℚ), ((is_reject l t).1 = true ↔ searchWithThrottle l 20 t = [])) := by
  have hgen : ∀ l : List (Str × ℚ),
      ((is_reject l t).1 = true ↔ searchWithThrottle l 20 t = []) := by
    intro l
    rw [is_reject_eq]
    by_cases hd : (searchWithThrottle l 20 t).length < 1
    · rw [if_pos hd]
      exact iff_of_true rfl (List.eq_nil_of_length_eq_zero (by omega))
    · rw [if_neg hd]
      refine iff_of_false (by simp) (fun hnil => hd ?_)
      rw [hnil]
      simp
  refine ⟨?_, hgen⟩
  rw [hgen]
  constructor
  · intro hempty
    by_contra hst
    push_neg at hst
    have hmem : (c, s) ∈ searchWithThrottle ((c, s) :: rest) 20 t := by
      apply List.mem_filter.mpr
      refine ⟨?_, by simpa using hst⟩
      rw [List.take_succ_cons]
      exact List.mem_cons_self _ _
    rw [hempty] at hmem
    cases hmem
  · intro hst
    apply List.filter_eq_nil_iff.mpr
    intro x hx
    have hx' : x ∈ (c, s) :: rest := List.take_subset _ _ hx
    have hxle : x.2 ≤ s := by
      rcases List.mem_cons.mp hx' with h1 | h1
      · rw [h1]
      · exact desc_head hsorted x h1
    simp only [decide_eq_true_eq]
    exact not_le.mpr (lt_of_le_of_lt hxle hst)

/-- Witness for C2 at a concrete ranked hit list: with the top hit scoring
9 and the threshold at 95 the gate rejects. -/
theorem C2_witness :
    (is_reject [(("install guide").toList, (9:ℚ)), (("faq entry").toList, 5)]
      95).1 = true :=
  ((C2_reject_iff (("install guide").toList) ((9:ℚ)) [(("faq entry").toList, 5)]
    95 (by rw [List.chain'_cons]; exact ⟨by decide, List.chain'_singleton _⟩)).1).mpr
    (by decide)

/-- Claim C1: the assertion `len(context) <= context_max_length` at the end
of context assembly CAN fail.  At this concrete accepted question the
single reranked hit's chunk (8 characters, not present verbatim in its
6-character source file) exceeds the remaining budget of 5, the Python
slice `file_text[0:add_len - len(chunk) - 1]` gets a negative stop, and the
assembled context has length 11 > 5, so `query` raises `AssertionError`. -/
theorem C1_assert_fails :
    query (some (("q").toList)) [((("q").toList), 1)] 0
      [⟨("bbbbbbbb").toList, "f.md", ("aaaaaa").toList⟩] 5 = .error assertErr := by
  rfl

/-- Claim C5: `query` returns `(null, null)` for a null question, an empty
question, and a rejected question, and every non-exceptional return has
its two components null together or non-null together. -/
theorem C5_null_together (rs : List (Str × ℚ)) (th : ℚ) (docs : List RDoc) (m : Int) :
    query none rs th docs m = .ok (none, none) ∧
    query (some []) rs th docs m = .ok (none, none) ∧
    (∀ q : Str, (is_reject rs th).1 = true → query (some q) rs th docs m = .ok (none, none)) ∧
    (∀ (q : Str) (a b : Option Str), query (some q) rs th docs m = .ok (a, b) →
      (a = none ∧ b = none) ∨ (a ≠ none ∧ b ≠ none)) := by
  refine ⟨rfl, rfl, ?_, ?_⟩
  · intro q hrej
    cases q with
    | nil => rfl
    | cons c u =>
      rw [query_some_cons, if_pos hrej]
  · intro q a b h
    cases q with
    | nil =>
      injection h with h1
      injection h1 with h1 h2
      exact Or.inl ⟨h1.symm, h2.symm⟩
    | cons c u =>
      rw [query_some_cons] at h
      by_cases hr : (is_reject rs th).1
      · rw [if_pos hr] at h
        injection h with h1
        injection h1 with h1 h2
        exact Or.inl ⟨h1.symm, h2.symm⟩
      · rw [if_neg hr] at h
        split at h
        · split at h
          · cases h
          · injection h with h1
            injection h1 with h1 h2
            refine Or.inr ⟨?_, ?_⟩
            · rw [← h1]; simp
            · rw [← h2]; simp
        · cases h

/-- Witness for C5: a concrete rejected question yields `(null, null)`. -/
theorem C5_witness :
    query (some (("hello").toList)) [] (0:ℚ) ([] : List RDoc) 5 = .ok (none, none) :=
  (C5_null_together [] 0 [] 5).2.2.1 (("hello").toList) (by decide)

/-- Claim C10: a non-empty question that passes the rejection gate but for
which the compression retriever returns no documents makes `query` raise an
exception (the attribution step `files[0]` indexes an empty list) instead
of returning a pair. -/
theorem C10_empty_retrieval (q : Str) (rs : List (Str × ℚ)) (th : ℚ) (m : Int)
    (hq : q ≠ []) (hacc : (is_reject rs th).1 = false) :
    ∃ e, query (some q) rs th [] m = .error e := by
  cases q with
  | nil => exact absurd rfl hq
  | cons c u =>
    rw [query_some_cons]
    rw [if_neg (by simp [hacc])]
    by_cases hm : (((assembleLoop ([] : List RDoc) m []).length : Int) ≤ m)
    · exact ⟨indexErr, by rw [if_pos hm]; rfl⟩
    · exact ⟨assertErr, by rw [if_neg hm]⟩

/-- Witness for C10: a concrete accepted question with an empty retrieval
result raises. -/
theorem C10_witness :
    ∃ e, query (some (("mmpose installation").toList))
      [(("install section").toList, (9:ℚ))] 5 [] 16000 = .error e :=
  C10_empty_retrieval _ _ _ _ (by decide) (by decide)

theorem lookup_setKey_ne (s : CSection) (k k' : String) (v : CVal) (h : k' ≠ k) :
    List.lookup k' (setKey s k v) = List.lookup k' s := by
  have hbeq : (k' == k) = false := beq_eq_false_iff_ne.mpr h
  induction s with
  | nil => simp [setKey, List.lookup, hbeq]
  | cons a rest ih =>
    obtain ⟨ak, av⟩ := a
    simp only [setKey]
    split
    · rename_i hak
      subst hak
      simp [List.lookup, hbeq]
    · simp only [List.lookup]
      cases hka : (k' == ak) with
      | true => simp [hka]
      | false => simp only [hka]; exact ih

theorem lookup2_cons (nm : String) (s : CSection) (rest : TomlConfig) (name k : String) :
    lookup2 ((nm, s) :: rest) name k
      = if name = nm then List.lookup k s else lookup2 rest name k := by
  unfold lookup2
  simp only [List.lookup]
  cases hn : (name == nm) with
  | true => rw [if_pos (eq_of_beq hn)]
  | false => rw [if_neg (by simpa using hn)]

/-- Claim C6: persisting the calibrated threshold rewrites only the
`reject_throttle` key of the `feature_store` section; every other
configuration entry (in particular the embedding and reranker model paths)
is looked up unchanged after the rewrite. -/
theorem C6_frame (cfg : TomlConfig) (t : ℚ) (name k : String)
    (h : name ≠ featureStoreKey ∨ k ≠ rejectThrottleKey) :
    lookup2 (saveThrottle cfg t) name k = lookup2 cfg name k := by
  induction cfg with
  | nil => rfl
  | cons sec rest ih =>
    obtain ⟨nm, s⟩ := sec
    have hsave : saveThrottle ((nm, s) :: rest) t
        = (if nm = featureStoreKey then (nm, setKey s rejectThrottleKey (Sum.inr t))
           else (nm, s)) :: saveThrottle rest t := rfl
    rw [hsave]
    by_cases hnm : nm = featureStoreKey
    · rw [if_pos hnm, lookup2_cons, lookup2_cons]
      by_cases hname : name = nm
      · rw [if_pos hname, if_pos hname]
        have hk : k ≠ rejectThrottleKey := by
          rcases h with h1 | h2
          · exact absurd (hname.trans hnm) h1
          · exact h2
        exact lookup_setKey_ne s rejectThrottleKey k (Sum.inr t) hk
      · rw [if_neg hname, if_neg hname]
        exact ih
    · rw [if_neg hnm, lookup2_cons, lookup2_cons]
      by_cases hname : name = nm
      · rw [if_pos hname, if_pos hname]
      · rw [if_neg hname, if_neg hname]
        exact ih

/-- A concrete configuration record with the three fields of the claim. -/
def c6Config : TomlConfig :=
  [(featureStoreKey,
    [(embeddingKey, Sum.inl ("models/bce-embedding-base_v1")),
     (rerankerKey, Sum.inl ("models/bce-reranker-base_v1")),
     (rejectThrottleKey, Sum.inr 0)])]

/-- Witness for C6: the embedding model path of a concrete configuration is
unchanged by the throttle rewrite. -/
theorem C6_witness :
    lookup2 (saveThrottle c6Config 2) featureStoreKey embeddingKey
      = lookup2 c6Config featureStoreKey embeddingKey :=
  C6_frame c6Config 2 featureStoreKey embeddingKey (Or.inr (by decide))

/-- A working directory holding a stale reject-index file from a prior
build. -/
def c7FS : SimFS :=
  ⟨["workdir/db_reject"], [("workdir/db_reject/index.faiss", "stale-entries")]⟩

/-- Counterexample to claim C7: the builder's directory preparation keeps
the prior build's file (`makedirs` only when missing), while the claimed
remove-and-recreate behaviour would delete it; the two differ at this
concrete file system. -/
theorem C7_counterexample :
    (makedirsIfAbsent c7FS ("workdir/db_reject")).files
      = [("workdir/db_reject/index.faiss", "stale-entries")] ∧
    (removeAndRecreate c7FS ("workdir/db_reject")).files = [] ∧
    makedirsIfAbsent c7FS ("workdir/db_reject")
      ≠ removeAndRecreate c7FS ("workdir/db_reject") := by
  decide

/-- Claim C7 as amended: on a rebuild the builder only creates the index
directory when it is missing; it never removes anything, so every file of
the prior build is still present afterwards (only files the subsequent
index save overwrites are replaced). -/
theorem C7_amended (fs : SimFS) (d : String) :
    (makedirsIfAbsent fs d).files = fs.files ∧ d ∈ (makedirsIfAbsent fs d).dirs ∧
    (d ∈ fs.dirs → makedirsIfAbsent fs d = fs) := by
  unfold makedirsIfAbsent
  by_cases hd : d ∈ fs.dirs
  · rw [if_pos hd]
    exact ⟨rfl, hd, fun _ => rfl⟩
  · rw [if_neg hd]
    refine ⟨rfl, ?_, fun h => absurd h hd⟩
    exact List.mem_cons_self _ _

/-- Witness for C7's amended claim at the concrete stale file system. -/
theorem C7_witness :
    (makedirsIfAbsent c7FS ("workdir/db_reject")).files = c7FS.files ∧
    makedirsIfAbsent c7FS ("workdir/db_reject") = c7FS :=
  ⟨(C7_amended c7FS ("workdir/db_reject")).1,
   (C7_amended c7FS ("workdir/db_reject")).2.2 (by decide)⟩

/-- Counterexample to claim C3: at this concrete document the reject-path
chunk is lower-cased by `split_md` (`'{} {}'.format(header,
content.lower())`), so it differs from the case-preserving chunking the
claim describes — the reject path does NOT preserve the original character
case. -/
theorem C3_counterexample :
    split_md (("# Guide\nABCDEFGHIJ").toList) = [("Guide abcdefghij").toList] ∧
    split_md_rawcase (("# Guide\nABCDEFGHIJ").toList) = [("Guide ABCDEFGHIJ").toList] ∧
    split_md (("# Guide\nABCDEFGHIJ").toList)
      ≠ split_md_rawcase (("# Guide\nABCDEFGHIJ").toList) := by
  decide

/-- Claim C3 as amended: the reject-index path applies no cleaning pass
(no code-block/link removal — the response chunks are exactly the reject
chunking of the cleaned text), but both paths lower-case the section
content through the splitter; only the header prefix keeps its case. -/
theorem C3_amended :
    (∀ (text c : Str), c ∈ ingressRejectChunks text →
      ∃ sec piece, sec ∈ headSplit text ∧
        (piece = sec.content ∨ piece ∈ windowSplit sec.content) ∧
        c = headerOf sec ++ spaceChar :: toLowerStr piece) ∧
    (∀ text : Str, ingressResponseChunks text = ingressRejectChunks (clean_md text)) := by
  constructor
  · intro text c hc
    unfold ingressRejectChunks at hc
    split at hc
    · cases hc
    · unfold split_md at hc
      rw [List.mem_flatMap] at hc
      obtain ⟨sec, hsec, hcs⟩ := hc
      unfold chunksOfSection at hcs
      split at hcs
      · rw [List.mem_map] at hcs
        obtain ⟨w, hw, hcw⟩ := hcs
        rw [List.mem_filter] at hw
        refine ⟨sec, w, hsec, Or.inr hw.1, ?_⟩
        rw [← hcw]
        rfl
      · split at hcs
        · rw [List.mem_singleton] at hcs
          refine ⟨sec, sec.content, hsec, Or.inl rfl, ?_⟩
          rw [hcs]
          rfl
        · cases hcs
  · intro text
    rfl

/-- Witness for C3's amended claim: the concrete reject-path chunk of a
small document decomposes into an unchanged header and a lower-cased
section content. -/
theorem C3_witness :
    ∃ sec piece, sec ∈ headSplit (("# T\nabcdefghij").toList) ∧
      (piece = sec.content ∨ piece ∈ windowSplit sec.content) ∧
      ("T abcdefghij").toList = headerOf sec ++ spaceChar :: toLowerStr piece :=
  C3_amended.1 (("# T\nabcdefghij").toList) (("T abcdefghij").toList) (by decide)

theorem windowSplit_length_le (N : Nat) :
    ∀ s : Str, s.length ≤ N → ∀ c ∈ windowSplit s, c.length ≤ 768 + 32 := by
  induction N with
  | zero =>
    intro s hs c hc
    rw [windowSplit] at hc
    split at hc
    · rw [List.mem_singleton] at hc
      subst hc
      omega
    · omega
  | succ N ih =>
    intro s hs c hc
    rw [windowSplit] at hc
    split at hc
    · rw [List.mem_singleton] at hc
      subst hc
      omega
    · rcases List.mem_cons.mp hc with h1 | h1
      · subst h1
        have := List.length_take 768 s
        omega
      · refine ih (s.drop 736) ?_ c h1
        rw [List.length_drop]
        omega

/-- A document whose header line is 10 characters long and whose section
body is 1013 characters: the emitted chunk has length 10 + 1 + 1013 =
1024. -/
def c4Text : Str := ("# 0123456789").toList ++ NL :: List.replicate 1013 ('a')

set_option maxRecDepth 40000 in
/-- Counterexample to claim C4: the header prefix is prepended AFTER the
length checks, so a chunk of the header-aware splitter can reach length
1024 — the strict bound `len(content) < 1024` fails on this concrete
document (the code itself only logs such chunks). -/
theorem C4_counterexample : ¬ (∀ c ∈ split_md c4Text, c.length < 1024) := by
  decide

/-- Claim C4 as amended: every chunk produced by the header-aware splitter
has length at least 10 (in fact at least 11, counting the header prefix
and separator); no chunk emitted directly by the length-bounded splitter
(chunk size 768, overlap 32) exceeds 768 + 32 characters; but the upper
bound `< 1024` does not hold for the emitted chunks — residual chunks of
length ≥ 1024 are kept in the output (they are only logged). -/
theorem C4_amended :
    (∀ (text c : Str), c ∈ split_md text → 10 ≤ c.length) ∧
    (∀ (s c : Str), c ∈ windowSplit s → c.length ≤ 768 + 32) := by
  constructor
  · intro text c hc
    unfold split_md at hc
    rw [List.mem_flatMap] at hc
    obtain ⟨sec, hsec, hcs⟩ := hc
    unfold chunksOfSection at hcs
    split at hcs
    · rw [List.mem_map] at hcs
      obtain ⟨w, hw, hcw⟩ := hcs
      rw [List.mem_filter] at hw
      have hw10 : 10 ≤ w.length := by simpa using hw.2
      rw [← hcw]
      simp only [formatChunk, toLowerStr, List.length_append, List.length_cons,
        List.length_map]
      omega
    · split at hcs
      · rw [List.mem_singleton] at hcs
        rename_i hbig hsmall
        rw [hcs]
        simp only [formatChunk, toLowerStr, List.length_append, List.length_cons,
          List.length_map]
        omega
      · cases hcs
  · intro s c hc
    exact windowSplit_length_le s.length s le_rfl c hc

/-- Witness for C4's amended claim: a concrete chunk of a small document
has length ≥ 10, and a concrete short text is its own single window. -/
theorem C4_witness :
    10 ≤ (("T abcdefghij").toList).length ∧ (("ab").toList).length ≤ 768 + 32 :=
  ⟨C4_amended.1 (("# T\nabcdefghij").toList) (("T abcdefghij").toList) (by decide),
   C4_amended.2 (("ab").toList) (("ab").toList) (by rw [windowSplit]; simp)⟩

theorem firstOccur_spec (n : Str) :
    ∀ (h : Str) (i : Nat), firstOccur n h = some i →
      (h.drop i).take n.length = n ∧ i + n.length ≤ h.length := by
  intro h
  induction h with
  | nil =>
    intro i hfo
    rw [firstOccur] at hfo
    split at hfo
    · rename_i hpre
      cases hfo
      have hp : n <+: ([] : Str) := List.isPrefixOf_iff_prefix.mp hpre
      have hn : n = [] := List.prefix_nil.mp hp
      subst hn
      simp
    · cases hfo
  | cons a t ih =>
    intro i hfo
    rw [firstOccur] at hfo
    split at hfo
    · rename_i hpre
      cases hfo
      have hp : n <+: (a :: t) := List.isPrefixOf_iff_prefix.mp hpre
      constructor
      · rw [List.drop_zero]
        exact (List.prefix_iff_eq_take.mp hp).symm
      · simpa using hp.length_le
    · rw [Option.map_eq_some'] at hfo
      obtain ⟨j, hj, hji⟩ := hfo
      subst hji
      obtain ⟨h1, h2⟩ := ih j hj
      constructor
      · rw [List.drop_succ_cons]
        exact h1
      · simp only [List.length_cons]
        omega

theorem pybound_eq (n : Nat) (i : Int) (h0 : 0 ≤ i) (hn : i ≤ (n : Int)) :
    pybound n i = i := by
  unfold pybound
  rw [if_neg (by omega)]
  exact min_eq_left hn

theorem pyslice_nonneg (xs : Str) (a b : Int) (ha : 0 ≤ a) (hab : a ≤ b)
    (hb : b ≤ (xs.length : Int)) :
    pyslice xs a b = (xs.drop a.toNat).take (b.toNat - a.toNat) := by
  unfold pyslice
  rw [pybound_eq _ _ ha (le_trans hab hb), pybound_eq _ _ (le_trans ha hab) hb]

theorem take_window_infix (file chunk : Str) (idx M : Nat)
    (hchunk : (file.drop idx).take chunk.length = chunk)
    (hfit : idx + chunk.length ≤ M) (hMn : M ≤ file.length) :
    (file.take M).length = M ∧ chunk <:+: file.take M := by
  constructor
  · rw [List.length_take]
    omega
  · have h1 : ((file.take M).drop idx).take chunk.length = chunk := by
      rw [List.drop_take, List.take_take, min_eq_left (by omega)]
      exact hchunk
    have h2 : (file.take M).drop idx
        = chunk ++ (file.take M).drop (idx + chunk.length) := by
      conv_lhs => rw [← List.take_append_drop chunk.length ((file.take M).drop idx)]
      rw [h1, List.drop_drop, Nat.add_comm]
    exact ⟨(file.take M).take idx, (file.take M).drop (idx + chunk.length), by
      rw [List.append_assoc, ← h2, List.take_append_drop]⟩

theorem drop_window_infix (file chunk : Str) (idx A M : Nat)
    (hchunk : (file.drop idx).take chunk.length = chunk)
    (hA : A + M = idx + chunk.length) (hAidx : A ≤ idx)
    (hbound : idx + chunk.length ≤ file.length) :
    ((file.drop A).take M).length = M ∧ chunk <:+: (file.drop A).take M := by
  constructor
  · rw [List.length_take, List.length_drop]
    omega
  · have h1 : ((file.drop A).take M).drop (idx - A) = chunk := by
      rw [List.drop_take, List.drop_drop]
      have e1 : A + (idx - A) = idx := by omega
      have e2 : M - (idx - A) = chunk.length := by omega
      rw [e1, e2]
      exact hchunk
    exact ⟨((file.drop A).take M).take (idx - A), [], by
      rw [List.append_nil, ← h1, List.take_append_drop]⟩

theorem assemble_single_found (chunk file : Str) (path : String) (idx : Nat) (m : Int)
    (hfind : firstOccur chunk file = some idx)
    (hlen : m < (file.length : Int))
    (hcl : (chunk.length : Int) ≤ m) :
    ((assembleLoop [⟨chunk, path, file⟩] m []).length : Int) = m ∧
    chunk <:+: assembleLoop [⟨chunk, path, file⟩] m [] := by
  obtain ⟨hchunk, hbound⟩ := firstOccur_spec chunk file idx hfind
  have hm0 : 0 ≤ m := le_trans (Int.natCast_nonneg _) hcl
  rw [assembleLoop]
  dsimp only
  simp only [List.length_nil, Nat.cast_zero, add_zero, sub_zero, List.nil_append]
  rw [if_pos (show ((file.length : Int)) > m from hlen)]
  by_cases hm : m ≤ 0
  · rw [if_pos hm]
    have hcl0 : chunk.length = 0 := by omega
    have hchunknil : chunk = [] := List.length_eq_zero.mp hcl0
    refine ⟨by simp only [List.length_nil, Nat.cast_zero]; omega, ?_⟩
    rw [hchunknil]
  · rw [if_neg hm]
    rw [hfind]
    dsimp only
    by_cases hcase : (idx : Int) - (m - (chunk.length : Int)) ≤ 0
    · rw [max_eq_left hcase]
      have hps : pyslice file 0 (0 + m) = file.take m.toNat := by
        rw [pyslice_nonneg file 0 (0 + m) (by omega) (by omega) (by omega)]
        simp only [Int.toNat_zero, List.drop_zero, Nat.sub_zero]
        congr 1
        omega
      rw [hps]
      obtain ⟨hl, hi⟩ := take_window_infix file chunk idx m.toNat hchunk (by omega) (by omega)
      exact ⟨by rw [hl]; omega, hi⟩
    · rw [max_eq_right (by omega)]
      have hps : pyslice file ((idx : Int) - (m - (chunk.length : Int)))
          (((idx : Int) - (m - (chunk.length : Int))) + m)
          = (file.drop (idx + chunk.length - m.toNat)).take m.toNat := by
        rw [pyslice_nonneg file _ _ (by omega) (by omega) (by omega)]
        have hSto : ((idx : Int) - (m - (chunk.length : Int))).toNat
            = idx + chunk.length - m.toNat := by omega
        have hbto : (((idx : Int) - (m - (chunk.length : Int))) + m).toNat
            = idx + chunk.length := by omega
        rw [hSto, hbto]
        congr 1
        omega
      rw [hps]
      obtain ⟨hl, hi⟩ := drop_window_infix file chunk idx (idx + chunk.length - m.toNat)
        m.toNat hchunk (by omega) (by omega) hbound
      exact ⟨by rw [hl]; omega, hi⟩

/-- Counterexample to claim C9: the accepted question's single hit has a
5-character chunk occurring verbatim at index 3 of its 10-character source
file and `contextMaxLength = 3`; the returned context is the 3-character
window holding only the chunk's tail, so it does NOT contain the matched
chunk's text even though the chunk occurs verbatim in the file. -/
theorem C9_counterexample :
    query (some (("q").toList)) [((("q").toList), (1:ℚ))] 0
      [⟨("34567").toList, "f.md", ("0123456789").toList⟩] 3
      = .ok (some (("34567").toList), some (("567").toList)) ∧
    firstOccur (("34567").toList) (("0123456789").toList) = some 3 ∧
    ¬ (("34567").toList <:+: ("567").toList) := by
  refine ⟨rfl, by decide, fun h => absurd h.length_le (by decide)⟩

/-- Claim C9 as amended: for an accepted question whose single
best-matching source file is longer than `contextMaxLength`, IF the
matched chunk occurs verbatim in the file AND the chunk is no longer than
`contextMaxLength`, then the returned context has length exactly
`contextMaxLength` and contains the matched chunk's text.  (When the chunk
exceeds the budget the window keeps only the chunk's tail, and when the
chunk does not occur verbatim the length bound itself can break — claims
C9/C1.) -/
theorem C9_amended (q : Str) (path : String) (chunk file : Str)
    (rs : List (Str × ℚ)) (th : ℚ) (idx : Nat) (m : Int)
    (hq : q ≠ []) (hacc : (is_reject rs th).1 = false)
    (hfind : firstOccur chunk file = some idx)
    (hlen : m < (file.length : Int))
    (hcl : (chunk.length : Int) ≤ m) :
    query (some q) rs th [⟨chunk, path, file⟩] m
      = .ok (some (joinNL [chunk]), some (assembleLoop [⟨chunk, path, file⟩] m []))
    ∧ ((assembleLoop [⟨chunk, path, file⟩] m []).length : Int) = m
    ∧ chunk <:+: assembleLoop [⟨chunk, path, file⟩] m [] := by
  obtain ⟨hL, hI⟩ := assemble_single_found chunk file path idx m hfind hlen hcl
  refine ⟨?_, hL, hI⟩
  cases q with
  | nil => exact absurd rfl hq
  | cons c u =>
    rw [query_some_cons]
    rw [if_neg (by simp [hacc])]
    rw [if_pos (le_of_eq hL)]
    rfl

/-- Witness for C9's amended claim: chunk "cd" at index 2 of "abcdefgh",
budget 4 — the context is "abcd", of length exactly 4 and containing
"cd". -/
theorem C9_witness :
    query (some (("q").toList)) [((("q").toList), (1:ℚ))] 0
      [⟨("cd").toList, "f.md", ("abcdefgh").toList⟩] 4
      = .ok (some (joinNL [("cd").toList]),
             some (assembleLoop [⟨("cd").toList, "f.md", ("abcdefgh").toList⟩] 4 []))
    ∧ ((assembleLoop [⟨("cd").toList, "f.md", ("abcdefgh").toList⟩] 4 []).length : Int) = 4
    ∧ ("cd").toList <:+: assembleLoop [⟨("cd").toList, "f.md", ("abcdefgh").toList⟩] 4 [] :=
  C9_amended (("q").toList) ("f.md") (("cd").toList) (("abcdefgh").toList)
    [((("q").toList), (1:ℚ))] 0 2 4
    (by decide) (by decide) (by decide) (by decide) (by decide)

theorem le_listMax : ∀ (l : List ℚ), ∀ x ∈ l, x ≤ listMax l := by
  intro l
  induction l with
  | nil => intro x hx; cases hx
  | cons a t ih =>
    intro x hx
    cases t with
    | nil =>
      rw [List.mem_singleton] at hx
      subst hx
      exact le_rfl
    | cons b u =>
      have hmx : listMax (a :: b :: u) = max a (listMax (b :: u)) := rfl
      rw [hmx]
      rcases List.mem_cons.mp hx with h1 | h1
      · subst h1
        exact le_max_left _ _
      · exact le_trans (ih x h1) (le_max_right _ _)

theorem listMax_mem : ∀ (l : List ℚ), l ≠ [] → listMax l ∈ l := by
  intro l
  induction l with
  | nil => intro h; exact absurd rfl h
  | cons a t ih =>
    intro _
    cases t with
    | nil => exact List.mem_singleton.mpr rfl
    | cons b u =>
      have hmx : listMax (a :: b :: u) = max a (listMax (b :: u)) := rfl
      rw [hmx]
      rcases max_choice a (listMax (b :: u)) with h | h
      · rw [h]; exact List.mem_cons_self _ _
      · rw [h]; exact List.mem_cons_of_mem _ (ih (by simp))

theorem listMin_le : ∀ (l : List ℚ), ∀ x ∈ l, listMin l ≤ x := by
  intro l
  induction l with
  | nil => intro x hx; cases hx
  | cons a t ih =>
    intro x hx
    cases t with
    | nil =>
      rw [List.mem_singleton] at hx
      subst hx
      exact le_rfl
    | cons b u =>
      have hmn : listMin (a :: b :: u) = min a (listMin (b :: u)) := rfl
      rw [hmn]
      rcases List.mem_cons.mp hx with h1 | h1
      · subst h1
        exact min_le_left _ _
      · exact le_trans (min_le_right _ _) (ih x h1)

theorem listMin_mem : ∀ (l : List ℚ), l ≠ [] → listMin l ∈ l := by
  intro l
  induction l with
  | nil => intro h; exact absurd rfl h
  | cons a t ih =>
    intro _
    cases t with
    | nil => exact List.mem_singleton.mpr rfl
    | cons b u =>
      have hmn : listMin (a :: b :: u) = min a (listMin (b :: u)) := rfl
      rw [hmn]
      rcases min_choice a (listMin (b :: u)) with h | h
      · rw [h]; exact List.mem_cons_self _ _
      · rw [h]; exact List.mem_cons_of_mem _ (ih (by simp))

theorem listMax_eq_of (l : List ℚ) (M : ℚ) (hmem : M ∈ l) (hub : ∀ v ∈ l, v ≤ M) :
    listMax l = M :=
  le_antisymm (hub _ (listMax_mem l (List.ne_nil_of_mem hmem))) (le_listMax l M hmem)

theorem getD_findIdx_max (f : ℚ → ℚ) (M : ℚ) :
    ∀ (l : List ℚ) (x : ℚ), x ∈ l → f x = M → (∀ y ∈ l, y ≠ x → f y < M) →
      l.getD ((l.map f).findIdx (fun v => decide (M ≤ v))) 0 = x := by
  intro l
  induction l with
  | nil => intro x hx; intro _ _; cases hx
  | cons a t ih =>
    intro x hx hfx hlt
    rw [List.map_cons, List.findIdx_cons]
    by_cases hax : a = x
    · subst hax
      have hpa : decide (M ≤ f a) = true := by
        rw [hfx]
        simp
      rw [hpa]
      simp
    · have hmem : x ∈ t := by
        rcases List.mem_cons.mp hx with h1 | h1
        · exact absurd h1.symm hax
        · exact h1
      have hfa : f a < M := hlt a (List.mem_cons_self _ _) hax
      have hpa : decide (M ≤ f a) = false := decide_eq_false (not_le.mpr hfa)
      rw [hpa]
      simp only [Bool.cond_false]
      rw [List.getD_cons_succ]
      exact ih x hmem hfx (fun y hy hyx => hlt y (List.mem_cons_of_mem _ hy) hyx)

theorem getD_argmax (f : ℚ → ℚ) (M : ℚ) (l : List ℚ) (x : ℚ)
    (hx : x ∈ l) (hfx : f x = M) (hlt : ∀ y ∈ l, y ≠ x → f y < M) :
    l.getD (argmaxIdx (l.map f)) 0 = x := by
  unfold argmaxIdx
  have hmax : listMax (l.map f) = M := by
    apply listMax_eq_of
    · rw [← hfx]
      exact List.mem_map_of_mem f hx
    · intro v hv
      rw [List.mem_map] at hv
      obtain ⟨y, hy, hvy⟩ := hv
      subst hvy
      by_cases hyx : y = x
      · subst hyx
        exact le_of_eq hfx
      · exact le_of_lt (hlt y hy hyx)
  simp only [hmax]
  exact getD_findIdx_max f M l x hx hfx hlt

theorem filter_length_lt {α : Type} (p : α → Bool) :
    ∀ (l : List α) (a : α), a ∈ l → p a = false → (l.filter p).length < l.length := by
  intro l
  induction l with
  | nil => intro a ha; intro _; cases ha
  | cons b t ih =>
    intro a ha hpa
    rcases List.mem_cons.mp ha with h1 | h1
    · subst h1
      rw [List.filter_cons, if_neg (by simp [hpa])]
      have := List.length_filter_le p t
      simp only [List.length_cons]
      omega
    · by_cases hpb : p b = true
      · rw [List.filter_cons, if_pos hpb]
        have := ih a h1 hpa
        simp only [List.length_cons]
        omega
      · rw [List.filter_cons, if_neg hpb]
        have := ih a h1 hpa
        simp only [List.length_cons]
        omega

theorem countGE_le_length (l : List ℚ) (t : ℚ) : countGE l t ≤ l.length :=
  List.length_filter_le _ _

theorem countGE_pos_of_mem (l : List ℚ) (t : ℚ) (h : t ∈ l) : 0 < countGE l t := by
  unfold countGE
  rw [List.length_pos]
  exact List.ne_nil_of_mem (List.mem_filter.mpr ⟨h, by simp⟩)

theorem countGE_eq_length (l : List ℚ) (t : ℚ) (h : ∀ x ∈ l, t ≤ x) :
    countGE l t = l.length := by
  unfold countGE
  congr 1
  apply List.filter_eq_self.mpr
  intro a ha
  simpa using h a ha

theorem countGE_eq_zero (l : List ℚ) (t : ℚ) (h : ∀ x ∈ l, x < t) : countGE l t = 0 := by
  unfold countGE
  rw [List.length_eq_zero]
  apply List.filter_eq_nil_iff.mpr
  intro a ha
  simpa using not_le.mpr (h a ha)

theorem precision_le_one (gs bs : List ℚ) (t : ℚ) : precisionAt gs bs t ≤ 1 := by
  unfold precisionAt
  have ha : (0:ℚ) ≤ (countGE gs t : ℚ) := Nat.cast_nonneg _
  have hb : (0:ℚ) ≤ (countGE bs t : ℚ) := Nat.cast_nonneg _
  rcases eq_or_lt_of_le (by linarith : (0:ℚ) ≤ (countGE gs t : ℚ) + (countGE bs t : ℚ))
    with h | h
  · rw [← h, div_zero]
    norm_num
  · rw [div_le_one h]
    linarith

theorem precision_lt_one (gs bs : List ℚ) (t : ℚ) (hb : 0 < countGE bs t) :
    precisionAt gs bs t < 1 := by
  unfold precisionAt
  have hb' : (0:ℚ) < (countGE bs t : ℚ) := by exact_mod_cast hb
  have ha : (0:ℚ) ≤ (countGE gs t : ℚ) := Nat.cast_nonneg _
  rw [div_lt_one (by linarith)]
  linarith

theorem recall_le_one (gs : List ℚ) (t : ℚ) (hg : gs ≠ []) : recallAt gs t ≤ 1 := by
  unfold recallAt
  have hL : (0:ℚ) < (gs.length : ℚ) := by
    have := List.length_pos.mpr hg
    exact_mod_cast this
  rw [div_le_one hL]
  exact_mod_cast countGE_le_length gs t

theorem recall_lt_one (gs : List ℚ) (t : ℚ) (h : countGE gs t < gs.length) :
    recallAt gs t < 1 := by
  unfold recallAt
  have hL : (0:ℚ) < (gs.length : ℚ) := by
    have h0 : 0 < gs.length := by omega
    exact_mod_cast h0
  rw [div_lt_one hL]
  exact_mod_cast h

theorem calibrate_sep (gs bs : List ℚ) (hg : gs ≠ []) (hb : bs ≠ [])
    (hsep : ∀ b ∈ bs, ∀ g ∈ gs, b < g) :
    calibrate gs bs = listMin gs ∧
    (∀ b ∈ bs, b < listMin gs) ∧
    precisionAt gs bs (listMin gs) = 1 ∧
    recallAt gs (listMin gs) = 1 := by
  have hminmem : listMin gs ∈ gs := listMin_mem gs hg
  have hbad : ∀ b ∈ bs, b < listMin gs := fun b hbm => hsep b hbm _ hminmem
  have hLpos : 0 < gs.length := List.length_pos.mpr hg
  have htp : countGE gs (listMin gs) = gs.length := countGE_eq_length _ _ (listMin_le gs)
  have hfp : countGE bs (listMin gs) = 0 := countGE_eq_zero _ _ hbad
  have hprec : precisionAt gs bs (listMin gs) = 1 := by
    unfold precisionAt
    rw [htp, hfp, Nat.cast_zero, add_zero]
    exact div_self (Nat.cast_ne_zero.mpr (by omega))
  have hrec : recallAt gs (listMin gs) = 1 := by
    unfold recallAt
    rw [htp]
    exact div_self (Nat.cast_ne_zero.mpr (by omega))
  have hsum : sumPR gs bs (listMin gs) = 2 := by
    unfold sumPR
    rw [hprec, hrec]
    norm_num
  have hmem_thr : listMin gs ∈ sortedDedup (gs ++ bs) := by
    unfold sortedDedup
    rw [(List.perm_insertionSort _ _).mem_iff, List.mem_dedup, List.mem_append]
    exact Or.inl hminmem
  have hlt : ∀ y ∈ sortedDedup (gs ++ bs), y ≠ listMin gs → sumPR gs bs y < 2 := by
    intro y hy hyne
    have hy' : y ∈ gs ++ bs := by
      unfold sortedDedup at hy
      rw [(List.perm_insertionSort _ _).mem_iff, List.mem_dedup] at hy
      exact hy
    rcases List.mem_append.mp hy' with hyg | hyb
    · have hminy : listMin gs < y := lt_of_le_of_ne (listMin_le gs y hyg) (Ne.symm hyne)
      have htp' : countGE gs y < gs.length := by
        unfold countGE
        exact filter_length_lt _ gs (listMin gs) hminmem
          (decide_eq_false (not_le.mpr hminy))
      have h1 := recall_lt_one gs y htp'
      have h2 := precision_le_one gs bs y
      unfold sumPR
      linarith
    · have hyc : 0 < countGE bs y := countGE_pos_of_mem bs y hyb
      have h1 := precision_lt_one gs bs y hyc
      have h2 := recall_le_one gs y hg
      unfold sumPR
      linarith
  refine ⟨?_, hbad, hprec, hrec⟩
  unfold calibrate
  exact getD_argmax (sumPR gs bs) 2 (sortedDedup (gs ++ bs)) (listMin gs) hmem_thr hsum hlt

/-- Counterexample to claim C8: with the single good score 9 and the single
bad score 1 (perfectly separated), the calibration sweep returns exactly
the minimum good score 9 — not a threshold strictly BELOW the minimum good
score, so the returned threshold is not strictly between the two groups'
score ranges. -/
theorem C8_counterexample :
    calibrate [(9:ℚ)] [1] = 9 ∧ ¬ (calibrate [(9:ℚ)] [1] < 9) := by
  have h := calibrate_sep [(9:ℚ)] [1] (List.cons_ne_nil _ _) (List.cons_ne_nil _ _)
    (by
      intro b hb g hg
      rw [List.mem_singleton] at hb hg
      subst hb
      subst hg
      decide)
  have hmin : listMin [(9:ℚ)] = 9 := rfl
  refine ⟨h.1.trans hmin, ?_⟩
  rw [h.1, hmin]
  exact lt_irrefl 9

/-- Claim C8 as amended: when every good score is strictly greater than
every bad score, the calibration sweep returns exactly the MINIMUM good
score — a threshold strictly above every bad score and equal to (not
strictly below) the smallest good score — and at that threshold precision
and recall both equal 1. -/
theorem C8_amended (gs bs : List ℚ) (hg : gs ≠ []) (hb : bs ≠ [])
    (hsep : ∀ b ∈ bs, ∀ g ∈ gs, b < g) :
    calibrate gs bs = listMin gs ∧ listMin gs ∈ gs ∧
    (∀ b ∈ bs, b < listMin gs) ∧
    precisionAt gs bs (listMin gs) = 1 ∧ recallAt gs (listMin gs) = 1 := by
  obtain ⟨h1, h2, h3, h4⟩ := calibrate_sep gs bs hg hb hsep
  exact ⟨h1, listMin_mem gs hg, h2, h3, h4⟩

/-- Witness for C8's amended claim at concrete separable scores. -/
theorem C8_witness :
    calibrate [(8:ℚ), 9] [1, 2] = listMin [(8:ℚ), 9] ∧
    listMin [(8:ℚ), 9] ∈ [(8:ℚ), 9] ∧
    (∀ b ∈ [(1:ℚ), 2], b < listMin [(8:ℚ), 9]) ∧
    precisionAt [(8:ℚ), 9] [1, 2] (listMin [(8:ℚ), 9]) = 1 ∧
    recallAt [(8:ℚ), 9] (listMin [(8:ℚ), 9]) = 1 :=
  C8_amended [(8:ℚ), 9] [1, 2] (List.cons_ne_nil _ _) (List.cons_ne_nil _ _) (by decide)
